import Mathlib

/-!
# Verification of the Quiver container format engine

This development is a shallow embedding of the Quiver container format
("Quiver" packs many tagged structural records into one sequential text
stream) and of the record-level operations built on it.

The command-line layer (`qvslice.py`, `qvextractspecific.py`,
`qvrename.py`, ...) is embedded directly from the Python source.  The
format engine itself (parser, serializer, slice, split, rename,
score-table, extract) lives in a compiled `quiver_pdb` extension whose
source is not part of this tree; those definitions are modelled from the
specification (each such definition's doc comment starts with
`Modelled from the spec:`).

A text stream is modelled as its list of lines (the container grammar is
line-oriented and newline-terminated); a file system is modelled as an
association list from file name to file content.
-/

namespace Quiver

/-! ## Character-list utilities used by the parser and serializer -/

/-- If `p` is a prefix of `s`, return the remainder of `s`, else `none`. -/
def dropPref : List Char → List Char → Option (List Char)
  | [], s => some s
  | _ :: _, [] => none
  | p :: ps, c :: cs => if p = c then dropPref ps cs else none

theorem dropPref_append (p r : List Char) : dropPref p (p ++ r) = some r := by
  induction p with
  | nil => rfl
  | cons a ps ih => simp [dropPref, ih]

theorem eq_append_of_dropPref {p s r : List Char} (h : dropPref p s = some r) :
    s = p ++ r := by
  induction p generalizing s with
  | nil => simpa [dropPref] using h
  | cons a ps ih =>
    cases s with
    | nil => simp [dropPref] at h
    | cons c cs =>
      by_cases hac : a = c
      · subst hac
        simp only [dropPref, if_pos rfl] at h
        simpa using ih h
      · simp [dropPref, hac] at h

/-- Join character-list segments with a single separator character. -/
def joinSep (c : Char) : List (List Char) → List Char
  | [] => []
  | [x] => x
  | x :: y :: xs => x ++ c :: joinSep c (y :: xs)

/-- Split a character list at every occurrence of the separator.
Always returns at least one (possibly empty) segment. -/
def splitSep (c : Char) : List Char → List (List Char)
  | [] => [[]]
  | x :: xs =>
    if x = c then [] :: splitSep c xs
    else
      match splitSep c xs with
      | [] => [[x]]
      | s :: rest => (x :: s) :: rest

theorem splitSep_ne_nil (c : Char) (l : List Char) : splitSep c l ≠ [] := by
  induction l with
  | nil => simp [splitSep]
  | cons x xs ih =>
    by_cases hx : x = c
    · simp [splitSep, hx]
    · simp only [splitSep, if_neg hx]
      cases h : splitSep c xs with
      | nil => simp
      | cons s rest => simp

theorem splitSep_of_not_mem {c : Char} {s : List Char} (hs : c ∉ s) :
    splitSep c s = [s] := by
  induction s with
  | nil => simp [splitSep]
  | cons x xs ih =>
    have hx : x ≠ c := by intro h; exact hs (by simp [h])
    have hxs : c ∉ xs := fun h => hs (by simp [h])
    simp only [splitSep, if_neg hx, ih hxs]

theorem splitSep_append_sep {c : Char} {s : List Char} (hs : c ∉ s) (l : List Char) :
    splitSep c (s ++ c :: l) = s :: splitSep c l := by
  induction s with
  | nil => simp [splitSep]
  | cons x xs ih =>
    have hx : x ≠ c := by intro h; exact hs (by simp [h])
    have hxs : c ∉ xs := fun h => hs (by simp [h])
    simp only [List.cons_append, splitSep, if_neg hx]
    rw [List.append_eq, ih hxs]

theorem splitSep_joinSep (c : Char) (segs : List (List Char))
    (hne : segs ≠ []) (hfree : ∀ s ∈ segs, c ∉ s) :
    splitSep c (joinSep c segs) = segs := by
  induction segs with
  | nil => exact absurd rfl hne
  | cons s rest ih =>
    cases rest with
    | nil => simpa [joinSep] using splitSep_of_not_mem (hfree s (by simp))
    | cons t rest' =>
      have hs : c ∉ s := hfree s (by simp)
      have ihtail : splitSep c (joinSep c (t :: rest')) = t :: rest' :=
        ih (by simp) (fun u hu => hfree u (by simp [hu]))
      simpa [joinSep, splitSep_append_sep hs] using ihtail

/-- Split at the first occurrence of `c`; `none` if `c` does not occur. -/
def splitFirst (c : Char) : List Char → Option (List Char × List Char)
  | [] => none
  | x :: xs =>
    if x = c then some ([], xs)
    else (splitFirst c xs).map (fun p => (x :: p.1, p.2))

theorem splitFirst_append {c : Char} {k : List Char} (hk : c ∉ k) (v : List Char) :
    splitFirst c (k ++ c :: v) = some (k, v) := by
  induction k with
  | nil => simp [splitFirst]
  | cons x xs ih =>
    have hx : x ≠ c := by intro h; exact hk (by simp [h])
    have hxs : c ∉ xs := fun h => hk (by simp [h])
    simp [splitFirst, hx, ih hxs]

/-! ## Data model (spec §3) -/

/-- One tagged entry of a container: a tag, an opaque body (a list of
lines, never interpreted), and an optional score mapping.  An empty
score list models "no score mapping"; key order is insertion order. -/
structure Record where
  tag : String
  body : List String
  score : List (String × String)
deriving Repr, DecidableEq

/-- A container is an ordered sequence of records. -/
abbrev Container := List Record

/-- The characters of the tag marker string spelling `QV_TAG` followed
by one space. -/
def qvTagMarker : List Char := ['Q', 'V', '_', 'T', 'A', 'G', ' ']

/-- The characters of the score marker string spelling `QV_SCORE`
followed by one space. -/
def qvScoreMarker : List Char := ['Q', 'V', '_', 'S', 'C', 'O', 'R', 'E', ' ']

/-! ## Parser (spec §4.1, grammar §6)

Modelled from the spec: the parser lives in the compiled `quiver_pdb`
extension (`rs_list_tags` and friends all parse through it); its source
is not in this tree.  The grammar is line-oriented: a record begins at
each `QV_TAG <tag>` line, subsequent lines are body lines until the next
marker, and an optional `QV_SCORE <tag> k1=v1|k2=v2|...` line is
extracted out of the body into the score mapping.  Malformed score
lines (missing `=`, duplicate keys) and marker-less leading lines are
ParseErrors. -/

/-- Errors raised by the parser (spec §4.1, §7). -/
inductive ParseError where
  | bodyOutsideRecord (line : String)
  | scoreOutsideRecord (line : String)
  | malformedScore (tag : String) (line : String)
  | duplicateScore (tag : String)
deriving Repr, DecidableEq

/-- Parse one `key=val` segment, splitting at the first `=`;
`none` when the `=` is missing. -/
def parsePair (seg : List Char) : Option (String × String) :=
  (splitFirst '=' seg).map (fun p => (⟨p.1⟩, ⟨p.2⟩))

/-- Structural-recursion variant of monadic map over `Option`. -/
def optMapM (f : α → Option β) : List α → Option (List β)
  | [] => some []
  | a :: as => do
    let b ← f a
    let bs ← optMapM f as
    some (b :: bs)

/-- Check that no score key occurs twice. -/
def nodupKeysB : List (String × String) → Bool
  | [] => true
  | kv :: rest => !(rest.any (fun q => q.1 == kv.1)) && nodupKeysB rest

/-- Parse the `k1=v1|k2=v2|...` payload of a score line; `none` on a
segment missing `=` or on duplicate keys. -/
def parseScorePayload (payload : List Char) : Option (List (String × String)) := do
  let pairs ← optMapM parsePair (splitSep '|' payload)
  if nodupKeysB pairs then some pairs else none

/-- Parse a full score line in the context of the current record's tag
`t`: the line must read `QV_SCORE <t> <payload>`. -/
def parseScoreLine (t : String) (l : String) : Option (List (String × String)) := do
  let r1 ← dropPref qvScoreMarker l.data
  let r2 ← dropPref (t.data ++ [' ']) r1
  parseScorePayload r2

/-- Close the record currently under construction, if any. -/
def closeRec : Option Record → List Record
  | none => []
  | some r => [r]

/-- Main parser loop over the lines of the stream.  `cur` is the record
currently under construction (body accumulated in order, score not yet
seen while `cur.score = []`). -/
def parseLoop : Option Record → List String → Except ParseError Container
  | cur, [] => .ok (closeRec cur)
  | cur, l :: ls =>
    match dropPref qvTagMarker l.data with
    | some rest =>
      match parseLoop (some ⟨⟨rest⟩, [], []⟩) ls with
      | .ok recs => .ok (closeRec cur ++ recs)
      | .error e => .error e
    | none =>
      if (dropPref qvScoreMarker l.data).isSome then
        match cur with
        | none => .error (.scoreOutsideRecord l)
        | some r =>
          if r.score.isEmpty then
            match parseScoreLine r.tag l with
            | some pairs => parseLoop (some { r with score := pairs }) ls
            | none => .error (.malformedScore r.tag l)
          else .error (.duplicateScore r.tag)
      else
        match cur with
        | none => .error (.bodyOutsideRecord l)
        | some r => parseLoop (some { r with body := r.body ++ [l] }) ls

/-- Parse a stream (its list of lines) into an ordered container. -/
def parseLines (input : List String) : Except ParseError Container :=
  parseLoop none input

/-! ## Serializer (spec §4.2, grammar §6)

Modelled from the spec: emit `QV_TAG <tag>`, then the body lines
verbatim in order, then — only when the record carries a score — a
regenerated `QV_SCORE <tag> k1=v1|...` line with keys in insertion
order. -/

/-- Encode one score pair as `key=val`. -/
def encodePair (kv : String × String) : List Char := kv.1.data ++ '=' :: kv.2.data

/-- Render the score line for tag `t` and a (nonempty) score mapping. -/
def scoreLineOf (t : String) (score : List (String × String)) : String :=
  ⟨qvScoreMarker ++ t.data ++ ' ' :: joinSep '|' (score.map encodePair)⟩

/-- Render one record as its lines. -/
def serializeRecord (r : Record) : List String :=
  (⟨qvTagMarker ++ r.tag.data⟩ : String) ::
    (r.body ++ if r.score.isEmpty then [] else [scoreLineOf r.tag r.score])

/-- Render a container as the concatenation of its records' lines. -/
def serializeLines (C : Container) : List String :=
  (C.map serializeRecord).flatten

/-! ## Well-formedness (spec §3, §6) -/

/-- A line is a marker line when it begins with either marker. -/
def isMarkerLine (l : String) : Bool :=
  (dropPref qvTagMarker l.data).isSome || (dropPref qvScoreMarker l.data).isSome

/-- Spec well-formedness of a record: the tag is a non-empty string with
no embedded newline; body lines are single lines that do not themselves
match the marker grammar; score keys avoid the `=`, `|` separators and
are distinct; score values avoid `|`. -/
def wellFormedRecord (r : Record) : Prop :=
  r.tag ≠ "" ∧ '\n' ∉ r.tag.data ∧
  (∀ l ∈ r.body, '\n' ∉ l.data ∧ isMarkerLine l = false) ∧
  (∀ kv ∈ r.score, kv.1 ≠ "" ∧ '=' ∉ kv.1.data ∧ '|' ∉ kv.1.data ∧
      '\n' ∉ kv.1.data ∧ '|' ∉ kv.2.data ∧ '\n' ∉ kv.2.data) ∧
  nodupKeysB r.score = true

instance (r : Record) : Decidable (wellFormedRecord r) := by
  unfold wellFormedRecord; infer_instance

/-- A container is well-formed when all its records are. -/
def wellFormedContainer (C : Container) : Prop :=
  ∀ r ∈ C, wellFormedRecord r

instance (C : Container) : Decidable (wellFormedContainer C) := by
  unfold wellFormedContainer; infer_instance

/-- The invariant the parser itself establishes on every record it
produces; it is exactly what the serializer needs for invertibility. -/
def parserInv (r : Record) : Prop :=
  (∀ l ∈ r.body, isMarkerLine l = false) ∧
  (∀ kv ∈ r.score, '=' ∉ kv.1.data ∧ '|' ∉ kv.1.data ∧ '|' ∉ kv.2.data) ∧
  nodupKeysB r.score = true

theorem parserInv_of_wellFormed {r : Record} (h : wellFormedRecord r) :
    parserInv r := by
  obtain ⟨-, -, hbody, hscore, hnodup⟩ := h
  exact ⟨fun l hl => (hbody l hl).2,
    fun kv hkv => ⟨(hscore kv hkv).2.1, (hscore kv hkv).2.2.1,
      (hscore kv hkv).2.2.2.2.1⟩, hnodup⟩

/-! ## Round-trip lemmas -/

theorem mk_data (s : String) : (⟨s.data⟩ : String) = s := rfl

theorem data_mk (l : List Char) : (⟨l⟩ : String).data = l := rfl

theorem dropPref_tagMarker_scoreLine (t : String) (s : List (String × String)) :
    dropPref qvTagMarker (scoreLineOf t s).data = none := by
  simp [scoreLineOf, qvTagMarker, qvScoreMarker, dropPref, data_mk]

theorem isMarkerLine_tagLine (t : String) :
    isMarkerLine (⟨qvTagMarker ++ t.data⟩ : String) = true := by
  simp [isMarkerLine, data_mk, dropPref_append]

/-- Reduction of the parser loop at a tag line. -/
theorem parseLoop_tag_line (cur : Option Record) (t : String) (ls : List String) :
    parseLoop cur ((⟨qvTagMarker ++ t.data⟩ : String) :: ls) =
      match parseLoop (some ⟨t, [], []⟩) ls with
      | .ok recs => .ok (closeRec cur ++ recs)
      | .error e => .error e := by
  simp only [parseLoop, data_mk, dropPref_append, mk_data]

/-- Reduction of the parser loop at a body (non-marker) line. -/
theorem parseLoop_body_line (r : Record) (l : String)
    (hl : isMarkerLine l = false) (ls : List String) :
    parseLoop (some r) (l :: ls) =
      parseLoop (some { r with body := r.body ++ [l] }) ls := by
  have h1 : dropPref qvTagMarker l.data = none := by
    by_cases h : (dropPref qvTagMarker l.data).isSome
    · simp [isMarkerLine, h] at hl
    · exact Option.not_isSome_iff_eq_none.mp h
  have h2 : (dropPref qvScoreMarker l.data).isSome = false := by
    by_cases h : (dropPref qvScoreMarker l.data).isSome
    · simp [isMarkerLine, h] at hl
    · simpa using h
  simp only [parseLoop, h1, h2, Bool.false_eq_true, if_false]

/-- Peeling a whole body off the front of the remaining input. -/
theorem parseLoop_body_all (b : List String)
    (hb : ∀ l ∈ b, isMarkerLine l = false) (r : Record) (ls : List String) :
    parseLoop (some r) (b ++ ls) =
      parseLoop (some { r with body := r.body ++ b }) ls := by
  induction b generalizing r with
  | nil => simp
  | cons l b' ih =>
    rw [List.cons_append, parseLoop_body_line r l (hb l (by simp)),
      ih (fun x hx => hb x (by simp [hx]))]
    simp

theorem parsePair_encodePair {kv : String × String} (hk : '=' ∉ kv.1.data) :
    parsePair (encodePair kv) = some kv := by
  simp [parsePair, encodePair, splitFirst_append hk, mk_data]

theorem optMapM_encodePairs {s : List (String × String)}
    (hk : ∀ kv ∈ s, '=' ∉ kv.1.data) :
    optMapM parsePair (s.map encodePair) = some s := by
  induction s with
  | nil => rfl
  | cons kv s' ih =>
    simp only [List.map_cons, optMapM, parsePair_encodePair (hk kv (by simp)),
      ih (fun x hx => hk x (by simp [hx])), Option.bind_some]
    rfl

theorem parseScorePayload_roundTrip {s : List (String × String)} (hne : s ≠ [])
    (hk : ∀ kv ∈ s, '=' ∉ kv.1.data ∧ '|' ∉ kv.1.data ∧ '|' ∉ kv.2.data)
    (hnodup : nodupKeysB s = true) :
    parseScorePayload (joinSep '|' (s.map encodePair)) = some s := by
  have hfree : ∀ seg ∈ s.map encodePair, '|' ∉ seg := by
    intro seg hseg
    obtain ⟨kv, hkv, rfl⟩ := List.mem_map.mp hseg
    intro hmem
    rcases List.mem_append.mp hmem with h | h
    · exact (hk kv hkv).2.1 h
    · rcases List.mem_cons.mp h with h | h
      · exact absurd h.symm (by decide)
      · exact (hk kv hkv).2.2 h
  have hsegs : splitSep '|' (joinSep '|' (s.map encodePair)) = s.map encodePair :=
    splitSep_joinSep '|' _ (by simpa using hne) hfree
  simp [parseScorePayload, hsegs, optMapM_encodePairs (fun kv h => (hk kv h).1), hnodup]

theorem parseScoreLine_roundTrip {t : String} {s : List (String × String)}
    (hne : s ≠ [])
    (hk : ∀ kv ∈ s, '=' ∉ kv.1.data ∧ '|' ∉ kv.1.data ∧ '|' ∉ kv.2.data)
    (hnodup : nodupKeysB s = true) :
    parseScoreLine t (scoreLineOf t s) = some s := by
  have h1 : dropPref qvScoreMarker (scoreLineOf t s).data =
      some (t.data ++ ' ' :: joinSep '|' (s.map encodePair)) := by
    simp [scoreLineOf, data_mk, dropPref_append]
  have h2 : dropPref (t.data ++ [' ']) (t.data ++ ' ' :: joinSep '|' (s.map encodePair)) =
      some (joinSep '|' (s.map encodePair)) := by
    have : t.data ++ ' ' :: joinSep '|' (s.map encodePair) =
        (t.data ++ [' ']) ++ joinSep '|' (s.map encodePair) := by simp
    rw [this, dropPref_append]
  simp [parseScoreLine, h1, h2, parseScorePayload_roundTrip hne hk hnodup]

/-- Reduction of the parser loop at a regenerated score line. -/
theorem parseLoop_score_line (r : Record) (hsc : r.score = [])
    {s : List (String × String)} (hne : s ≠ [])
    (hk : ∀ kv ∈ s, '=' ∉ kv.1.data ∧ '|' ∉ kv.1.data ∧ '|' ∉ kv.2.data)
    (hnodup : nodupKeysB s = true) (ls : List String) :
    parseLoop (some r) (scoreLineOf r.tag s :: ls) =
      parseLoop (some { r with score := s }) ls := by
  have h1 : dropPref qvTagMarker (scoreLineOf r.tag s).data = none :=
    dropPref_tagMarker_scoreLine r.tag s
  have h2 : (dropPref qvScoreMarker (scoreLineOf r.tag s).data).isSome = true := by
    simp [scoreLineOf, data_mk, dropPref_append]
  simp only [parseLoop, h1, h2, if_true, hsc, List.isEmpty_nil,
    parseScoreLine_roundTrip hne hk hnodup]

/-- Parsing the serialization of a container of invariant-satisfying
records recovers the container, for any in-progress record. -/
theorem parseLoop_serializeLines (C : Container) (hC : ∀ r ∈ C, parserInv r)
    (cur : Option Record) :
    parseLoop cur (serializeLines C) = .ok (closeRec cur ++ C) := by
  induction C generalizing cur with
  | nil => simp [serializeLines, parseLoop]
  | cons r C' ih =>
    obtain ⟨t, b, s⟩ := r
    obtain ⟨hbody, hscore, hnodup⟩ := hC ⟨t, b, s⟩ (by simp)
    have hC' : ∀ x ∈ C', parserInv x := fun x hx => hC x (by simp [hx])
    have hser : serializeLines (⟨t, b, s⟩ :: C') =
        (⟨qvTagMarker ++ t.data⟩ : String) ::
          (b ++ ((if s.isEmpty then [] else [scoreLineOf t s]) ++ serializeLines C')) := by
      simp [serializeLines, serializeRecord]
    rw [hser, parseLoop_tag_line cur t,
      parseLoop_body_all b (fun l hl => (hbody l hl)) ⟨t, [], []⟩]
    cases s with
    | nil =>
      simp only [List.isEmpty_nil, if_true, List.nil_append]
      rw [ih hC' (some ⟨t, b, []⟩)]
      simp [closeRec]
    | cons kv s' =>
      simp only [List.isEmpty_cons, Bool.false_eq_true, if_false, List.nil_append,
        List.cons_append]
      rw [parseLoop_score_line ⟨t, b, []⟩ rfl (by simp) hscore hnodup,
        ih hC' (some ⟨t, b, kv :: s'⟩)]
      simp [closeRec]

/-- Round trip for containers satisfying the parser invariant. -/
theorem parse_serialize_of_inv (C : Container) (hC : ∀ r ∈ C, parserInv r) :
    parseLines (serializeLines C) = .ok C := by
  simpa [parseLines, closeRec] using parseLoop_serializeLines C hC none

/-! ## The parser establishes the invariant on its own output -/

theorem splitFirst_some {c : Char} : ∀ {l a b : List Char},
    splitFirst c l = some (a, b) → c ∉ a ∧ l = a ++ c :: b := by
  intro l
  induction l with
  | nil => intro a b h; simp [splitFirst] at h
  | cons x xs ih =>
    intro a b h
    by_cases hx : x = c
    · subst hx
      simp only [splitFirst, if_pos rfl, Option.some.injEq, Prod.mk.injEq] at h
      obtain ⟨rfl, rfl⟩ := h
      exact ⟨by simp, rfl⟩
    · simp only [splitFirst, if_neg hx, Option.map_eq_some'] at h
      obtain ⟨⟨a', b'⟩, hab, heq⟩ := h
      obtain ⟨h1, h2⟩ := ih hab
      obtain ⟨rfl, rfl⟩ := Prod.mk.injEq .. ▸ heq
      refine ⟨?_, by simp [h2]⟩
      intro hmem
      rcases List.mem_cons.mp hmem with h | h
      · exact hx h.symm
      · exact h1 h

theorem mem_splitSep {c : Char} : ∀ {l s : List Char}, s ∈ splitSep c l → c ∉ s := by
  intro l
  induction l with
  | nil =>
    intro s hs
    simp only [splitSep, List.mem_singleton] at hs
    subst hs; simp
  | cons x xs ih =>
    intro s hs
    by_cases hx : x = c
    · simp only [splitSep, if_pos hx, List.mem_cons] at hs
      rcases hs with rfl | h
      · simp
      · exact ih h
    · simp only [splitSep, if_neg hx] at hs
      cases hsp : splitSep c xs with
      | nil => exact absurd hsp (splitSep_ne_nil c xs)
      | cons s0 rest =>
        rw [hsp] at hs
        rcases List.mem_cons.mp hs with rfl | h
        · intro hmem
          rcases List.mem_cons.mp hmem with h | h
          · exact hx h.symm
          · exact ih (by rw [hsp]; exact List.mem_cons_self s0 rest) h
        · exact ih (by rw [hsp]; exact List.mem_cons_of_mem s0 h)

theorem optMapM_mem {α β : Type} {f : α → Option β} : ∀ {xs : List α} {ys : List β},
    optMapM f xs = some ys → ∀ y ∈ ys, ∃ x ∈ xs, f x = some y := by
  intro xs
  induction xs with
  | nil =>
    intro ys h y hy
    simp only [optMapM, Option.some.injEq] at h
    subst h; simp at hy
  | cons a as ih =>
    intro ys h y hy
    simp only [optMapM, Option.bind_eq_bind, Option.bind_eq_some,
      Option.some.injEq] at h
    obtain ⟨b, hb, bs, hbs, rfl⟩ := h
    rcases List.mem_cons.mp hy with rfl | h
    · exact ⟨a, by simp, hb⟩
    · obtain ⟨x, hx, hfx⟩ := ih hbs y h
      exact ⟨x, by simp [hx], hfx⟩

theorem parsePair_inv {seg : List Char} {kv : String × String}
    (h : parsePair seg = some kv) :
    '=' ∉ kv.1.data ∧ seg = kv.1.data ++ '=' :: kv.2.data := by
  simp only [parsePair, Option.map_eq_some'] at h
  obtain ⟨⟨a, b⟩, hab, heq⟩ := h
  obtain ⟨h1, h2⟩ := splitFirst_some hab
  subst heq
  exact ⟨h1, h2⟩

theorem parseScoreLine_inv {t l : String} {pairs : List (String × String)}
    (h : parseScoreLine t l = some pairs) :
    (∀ kv ∈ pairs, '=' ∉ kv.1.data ∧ '|' ∉ kv.1.data ∧ '|' ∉ kv.2.data) ∧
      nodupKeysB pairs = true := by
  simp only [parseScoreLine, Option.bind_eq_bind, Option.bind_eq_some] at h
  obtain ⟨r1, hr1, r2, hr2, hpayload⟩ := h
  simp only [parseScorePayload, Option.bind_eq_bind, Option.bind_eq_some] at hpayload
  obtain ⟨pairs', hmap, hif⟩ := hpayload
  have hnodup : nodupKeysB pairs' = true ∧ pairs' = pairs := by
    by_cases hn : nodupKeysB pairs' = true
    · simp only [hn, if_true, Option.some.injEq] at hif
      exact ⟨hn, hif⟩
    · simp [hn] at hif
  obtain ⟨hnodup, rfl⟩ := hnodup
  refine ⟨?_, hnodup⟩
  intro kv hkv
  obtain ⟨seg, hseg, hpair⟩ := optMapM_mem hmap kv hkv
  have hsegfree : '|' ∉ seg := mem_splitSep hseg
  obtain ⟨hk, hdecomp⟩ := parsePair_inv hpair
  refine ⟨hk, ?_, ?_⟩
  · intro hmem
    exact hsegfree (by rw [hdecomp]; exact List.mem_append_left _ hmem)
  · intro hmem
    exact hsegfree (by
      rw [hdecomp]
      exact List.mem_append_right _ (List.mem_cons_of_mem _ hmem))

/-- Every record in a successful parse satisfies the parser invariant,
provided the record under construction does. -/
theorem parseLoop_inv : ∀ (ls : List String) (cur : Option Record) (C : Container),
    parseLoop cur ls = .ok C → (∀ r, cur = some r → parserInv r) →
    ∀ r ∈ C, parserInv r := by
  intro ls
  induction ls with
  | nil =>
    intro cur C h hcur r hr
    simp only [parseLoop, Except.ok.injEq] at h
    subst h
    cases cur with
    | none => simp [closeRec] at hr
    | some r0 =>
      simp only [closeRec, List.mem_singleton] at hr
      subst hr
      exact hcur _ rfl
  | cons l ls ih =>
    intro cur C h hcur r hr
    simp only [parseLoop] at h
    split at h
    · -- tag-marker line: a fresh record is opened
      rename_i rest htag
      split at h
      · rename_i recs hrec
        simp only [Except.ok.injEq] at h
        subst h
        rcases List.mem_append.mp hr with hmem | hmem
        · cases cur with
          | none => simp [closeRec] at hmem
          | some r0 =>
            simp only [closeRec, List.mem_singleton] at hmem
            subst hmem
            exact hcur _ rfl
        · refine ih _ recs hrec ?_ r hmem
          intro r0 hr0
          cases hr0
          exact ⟨by simp, by simp, rfl⟩
      · simp at h
    · rename_i htag
      split at h
      · -- score-marker line
        rename_i hscore
        split at h
        · simp at h
        · rename_i r0
          split at h
          · rename_i hsc
            split at h
            · rename_i pairs hps
              refine ih _ C h ?_ r hr
              intro r1 hr1
              cases hr1
              obtain ⟨hbody, -, -⟩ := hcur r0 rfl
              obtain ⟨hkeys, hnodup⟩ := parseScoreLine_inv hps
              exact ⟨hbody, hkeys, hnodup⟩
            · simp at h
          · simp at h
      · -- body line
        rename_i hscore
        split at h
        · simp at h
        · rename_i r0
          refine ih _ C h ?_ r hr
          intro r1 hr1
          cases hr1
          obtain ⟨hbody, hkeys, hnodup⟩ := hcur r0 rfl
          refine ⟨?_, hkeys, hnodup⟩
          intro x hx
          rcases List.mem_append.mp hx with hmem | hmem
          · exact hbody x hmem
          · rw [List.mem_singleton.mp hmem]
            simp only [isMarkerLine, htag, Option.isSome_none, Bool.false_or]
            simpa using hscore

/-- Every record a successful top-level parse yields satisfies the
parser invariant. -/
theorem parseLines_inv {x : List String} {C : Container}
    (h : parseLines x = .ok C) : ∀ r ∈ C, parserInv r :=
  parseLoop_inv x none C h (fun r hr => by cases hr)

/-! ## Claim C1 -/

/-- C1: For every well-formed container `C`, parsing the serializer's
output yields `C` back — tag, body lines and score mapping equal per
record, record order preserved; equivalently, for every input text `x`
that parses, `parse (serialize (parse x)) = parse x`. -/
theorem parse_serialize_roundTrip :
    (∀ C : Container, wellFormedContainer C →
      parseLines (serializeLines C) = Except.ok C) ∧
    (∀ (x : List String) (C : Container), parseLines x = Except.ok C →
      parseLines (serializeLines C) = Except.ok C) := by
  constructor
  · intro C hC
    exact parse_serialize_of_inv C (fun r hr => parserInv_of_wellFormed (hC r hr))
  · intro x C h
    exact parse_serialize_of_inv C (parseLines_inv h)

/-- Witness for C1 at a concrete two-record container. -/
theorem parse_serialize_roundTrip_witness :
    parseLines (serializeLines [⟨"t1", ["ATOM 1"], [("a", "1"), ("b", "2")]⟩,
      ⟨"t2", ["ATOM 2"], []⟩]) =
      Except.ok [⟨"t1", ["ATOM 1"], [("a", "1"), ("b", "2")]⟩,
        ⟨"t2", ["ATOM 2"], []⟩] :=
  parse_serialize_roundTrip.1 _ (by decide)

/-! ## Rename (spec §4.9) -/

/-- Typed operation failures (spec §7). -/
inductive OpError where
  | invalidArgument
deriving Repr, DecidableEq

/-- Modelled from the spec: the record-level core of `rs_rename_tags`
(whose compiled source is not in this tree).  Record `i`'s tag is
replaced by `newTags[i]`; body and score mapping are copied unchanged; a
length mismatch fails with InvalidArgument before any output. -/
def renameRecords (C : Container) (newTags : List String) : Except OpError Container :=
  if C.length = newTags.length then
    .ok (List.zipWith (fun r t => { r with tag := t }) C newTags)
  else .error .invalidArgument

/-- C2: when the new-tag list matches the record count, rename succeeds
and, for every index `i`, record `i` of the result carries tag
`newTags[i]` and the body lines and score mapping of the original
record `i`. -/
theorem renameRecords_spec (C : Container) (newTags : List String)
    (h : newTags.length = C.length) :
    ∃ C', renameRecords C newTags = Except.ok C' ∧ C'.length = C.length ∧
      ∀ (i : Nat) (hi : i < C.length) (hi' : i < newTags.length) (hi'' : i < C'.length),
        (C'.get ⟨i, hi''⟩).tag = newTags.get ⟨i, hi'⟩ ∧
        (C'.get ⟨i, hi''⟩).body = (C.get ⟨i, hi⟩).body ∧
        (C'.get ⟨i, hi''⟩).score = (C.get ⟨i, hi⟩).score := by
  refine ⟨List.zipWith (fun r t => { r with tag := t }) C newTags, ?_, ?_, ?_⟩
  · rw [renameRecords, if_pos h.symm]
  · simp [h]
  · intro i hi hi' hi''
    simp [List.get_eq_getElem, List.getElem_zipWith]

/-- Witness for C2 on a concrete two-record container. -/
theorem renameRecords_spec_witness :
    (["n1", "n2"] : List String).length =
      ([⟨"a", ["x"], []⟩, ⟨"b", [], [("k", "1")]⟩] : Container).length ∧
    ∃ C', renameRecords [⟨"a", ["x"], []⟩, ⟨"b", [], [("k", "1")]⟩] ["n1", "n2"] =
        Except.ok C' ∧
      C'.length = ([⟨"a", ["x"], []⟩, ⟨"b", [], [("k", "1")]⟩] : Container).length ∧
      ∀ (i : Nat) (hi : i < ([⟨"a", ["x"], []⟩, ⟨"b", [], [("k", "1")]⟩] : Container).length)
        (hi' : i < (["n1", "n2"] : List String).length) (hi'' : i < C'.length),
        (C'.get ⟨i, hi''⟩).tag = (["n1", "n2"] : List String).get ⟨i, hi'⟩ ∧
        (C'.get ⟨i, hi''⟩).body =
          (([⟨"a", ["x"], []⟩, ⟨"b", [], [("k", "1")]⟩] : Container).get ⟨i, hi⟩).body ∧
        (C'.get ⟨i, hi''⟩).score =
          (([⟨"a", ["x"], []⟩, ⟨"b", [], [("k", "1")]⟩] : Container).get ⟨i, hi⟩).score :=
  ⟨rfl, renameRecords_spec _ _ rfl⟩

/-! ## Slice (spec §4.7) -/

/-- Result of a slice: the matched records and the not-found warnings. -/
structure SliceResult where
  data : Container
  warnings : List String
deriving Repr, DecidableEq

/-- Modelled from the spec: `rs_qvslice` walks the requested tags in
order; a tag present in the container contributes its (first) matching
record to the output, an absent tag contributes a warning naming it;
absent tags never fail the operation. -/
def slice (C : Container) : List String → SliceResult
  | [] => ⟨[], []⟩
  | t :: ts =>
    let rest := slice C ts
    match C.find? (fun r => r.tag == t) with
    | some r => ⟨r :: rest.data, rest.warnings⟩
    | none => ⟨rest.data, t :: rest.warnings⟩

/-- C3: slice returns exactly one record per requested tag present in
the container, in request order (a tag requested twice contributes
twice), every returned record is a record of the container, and the
warnings are exactly the requested tags absent from the container; the
operation itself is total — absent tags never make it fail. -/
theorem slice_spec (C : Container) (tags : List String) :
    (slice C tags).data =
      (tags.filter (fun t => C.any (fun r => r.tag == t))).map
        (fun t => ((C.find? (fun r => r.tag == t)).getD ⟨t, [], []⟩)) ∧
    (∀ r ∈ (slice C tags).data, r ∈ C) ∧
    (slice C tags).warnings = tags.filter (fun t => !C.any (fun r => r.tag == t)) := by
  induction tags with
  | nil => exact ⟨rfl, by simp [slice], rfl⟩
  | cons t ts ih =>
    obtain ⟨ihdata, ihmem, ihwarn⟩ := ih
    cases hfind : C.find? (fun r => r.tag == t) with
    | some r =>
      have hany : C.any (fun r => r.tag == t) = true := by
        rcases List.find?_some hfind with htag
        exact List.any_eq_true.mpr ⟨r, List.mem_of_find?_eq_some hfind, htag⟩
      refine ⟨?_, ?_, ?_⟩
      · simp only [slice, hfind, List.filter_cons, hany, if_true, List.map_cons,
          Option.getD_some, ihdata]
      · intro x hx
        simp only [slice, hfind] at hx
        rcases List.mem_cons.mp hx with rfl | hx
        · exact List.mem_of_find?_eq_some hfind
        · exact ihmem x hx
      · simp [slice, hfind, List.filter_cons, hany, ihwarn]
    | none =>
      have hany : C.any (fun r => r.tag == t) = false := by
        rw [List.any_eq_false]
        intro r hr
        intro htag
        have := List.find?_eq_none.mp hfind r hr
        exact this htag
      refine ⟨?_, ?_, ?_⟩
      · simp [slice, hfind, List.filter_cons, hany, ihdata]
      · intro x hx
        simp only [slice, hfind] at hx
        exact ihmem x hx
      · simp [slice, hfind, List.filter_cons, hany, ihwarn]

/-! ## Split (spec §4.8) -/

/-- Modelled from the spec: the chunking core of `rs_qvsplit` — records
are grouped into consecutive chunks of `k` in container order, the last
chunk possibly smaller.  (The `k = 0` guard arm is never reached: the
operation rejects non-positive chunk sizes first.) -/
def chunksOf (k : Nat) (l : Container) : List Container :=
  if hl : l = [] then []
  else if hk : k = 0 then [l]
  else l.take k :: chunksOf k (l.drop k)
termination_by l.length
decreasing_by
  simp only [List.length_drop]
  have hpos : 0 < l.length := List.length_pos.mpr hl
  omega

/-- Modelled from the spec: `rs_qvsplit` fails with InvalidArgument on a
non-positive chunk size before writing anything, and otherwise produces
the consecutive chunks. -/
def splitContainer (C : Container) (k : Nat) : Except OpError (List Container) :=
  if k = 0 then .error .invalidArgument else .ok (chunksOf k C)

theorem chunksOf_nil (k : Nat) : chunksOf k [] = [] := by
  rw [chunksOf]; simp

theorem chunksOf_cons (k : Nat) (hk : 0 < k) (l : Container) (hl : l ≠ []) :
    chunksOf k l = l.take k :: chunksOf k (l.drop k) := by
  rw [chunksOf, dif_neg hl, dif_neg (Nat.pos_iff_ne_zero.mp hk)]

theorem chunksOf_flatten (k : Nat) (hk : 0 < k) (l : Container) :
    (chunksOf k l).flatten = l := by
  have key : ∀ (n : Nat) (l : Container), l.length ≤ n → (chunksOf k l).flatten = l := by
    intro n
    induction n with
    | zero =>
      intro l hl
      have : l = [] := List.eq_nil_of_length_eq_zero (Nat.le_zero.mp hl)
      subst this
      simp [chunksOf_nil]
    | succ n ih =>
      intro l hl
      by_cases hnil : l = []
      · subst hnil; simp [chunksOf_nil]
      · rw [chunksOf_cons k hk l hnil, List.flatten_cons,
          ih (l.drop k) (by
            simp only [List.length_drop]
            have hpos : 0 < l.length := List.length_pos.mpr hnil
            omega)]
        exact List.take_append_drop k l
  exact key l.length l le_rfl

theorem chunksOf_length (k : Nat) (hk : 0 < k) (l : Container) :
    (chunksOf k l).length = (l.length + k - 1) / k := by
  have key : ∀ (n : Nat) (l : Container), l.length ≤ n →
      (chunksOf k l).length = (l.length + k - 1) / k := by
    intro n
    induction n with
    | zero =>
      intro l hl
      have : l = [] := List.eq_nil_of_length_eq_zero (Nat.le_zero.mp hl)
      subst this
      have hz : k - 1 < k := by omega
      simp [chunksOf_nil, Nat.div_eq_of_lt hz]
    | succ n ih =>
      intro l hl
      by_cases hnil : l = []
      · subst hnil
        have hz : k - 1 < k := by omega
        simp [chunksOf_nil, Nat.div_eq_of_lt hz]
      · have hpos : 0 < l.length := List.length_pos.mpr hnil
        rw [chunksOf_cons k hk l hnil, List.length_cons,
          ih (l.drop k) (by simp only [List.length_drop]; omega),
          List.length_drop]
        by_cases hle : l.length ≤ k
        · have h0 : l.length - k = 0 := by omega
          rw [h0]
          have h1 : 0 + k - 1 = k - 1 := by omega
          have h2 : l.length + k - 1 = (l.length - 1) + k := by omega
          rw [h1, h2, Nat.add_div_right _ hk,
            Nat.div_eq_of_lt (by omega), Nat.div_eq_of_lt (by omega)]
        · have h1 : l.length - k + k - 1 = (l.length - k - 1) + k := by omega
          have h2 : l.length + k - 1 = ((l.length - k - 1) + k) + k := by omega
          rw [h1, h2, Nat.add_div_right _ hk, Nat.add_div_right _ hk,
            Nat.add_div_right _ hk]
  exact key l.length l le_rfl

theorem chunksOf_mem (k : Nat) (hk : 0 < k) (l : Container) :
    ∀ c ∈ chunksOf k l, c.length ≤ k ∧ c ≠ [] := by
  have key : ∀ (n : Nat) (l : Container), l.length ≤ n →
      ∀ c ∈ chunksOf k l, c.length ≤ k ∧ c ≠ [] := by
    intro n
    induction n with
    | zero =>
      intro l hl c hc
      have : l = [] := List.eq_nil_of_length_eq_zero (Nat.le_zero.mp hl)
      subst this
      simp [chunksOf_nil] at hc
    | succ n ih =>
      intro l hl c hc
      by_cases hnil : l = []
      · subst hnil; simp [chunksOf_nil] at hc
      · have hpos : 0 < l.length := List.length_pos.mpr hnil
        rw [chunksOf_cons k hk l hnil] at hc
        rcases List.mem_cons.mp hc with rfl | hc
        · constructor
          · simp [List.length_take]
          · have : (l.take k).length = min k l.length := List.length_take k l
            intro hcon
            rw [hcon] at this
            simp only [List.length_nil] at this
            omega
        · exact ih (l.drop k) (by simp only [List.length_drop]; omega) c hc
  exact key l.length l le_rfl

theorem chunksOf_ne_nil (k : Nat) (hk : 0 < k) (l : Container) (hl : l ≠ []) :
    chunksOf k l ≠ [] := by
  rw [chunksOf_cons k hk l hl]
  simp

theorem chunksOf_full_chunks (k : Nat) (hk : 0 < k) (l : Container) :
    ∀ (i : Nat), i + 1 < (chunksOf k l).length →
      ((chunksOf k l)[i]?).map List.length = some k := by
  have key : ∀ (n : Nat) (l : Container), l.length ≤ n →
      ∀ (i : Nat), i + 1 < (chunksOf k l).length →
        ((chunksOf k l)[i]?).map List.length = some k := by
    intro n
    induction n with
    | zero =>
      intro l hl i hi
      have : l = [] := List.eq_nil_of_length_eq_zero (Nat.le_zero.mp hl)
      subst this
      simp [chunksOf_nil] at hi
    | succ n ih =>
      intro l hl i hi
      by_cases hnil : l = []
      · subst hnil; simp [chunksOf_nil] at hi
      · have hpos : 0 < l.length := List.length_pos.mpr hnil
        rw [chunksOf_cons k hk l hnil] at hi ⊢
        rcases i with _ | j
        · -- first chunk of at least two: the tail is nonempty, so k < length
          have hrest : chunksOf k (l.drop k) ≠ [] := by
            intro hcon
            simp only [List.length_cons, hcon, List.length_nil] at hi
            omega
          have hdrop : l.drop k ≠ [] := by
            intro hcon
            exact hrest (by rw [hcon, chunksOf_nil])
          have hklt : k < l.length := by
            by_contra hcon
            exact hdrop (List.drop_eq_nil_of_le (by omega))
          simp only [List.getElem?_cons_zero, Option.map_some', List.length_take,
            Option.some.injEq]
          omega
        · simp only [List.length_cons, Nat.add_lt_add_iff_right] at hi
          simp only [List.getElem?_cons_succ]
          exact ih (l.drop k) (by simp only [List.length_drop]; omega) j hi
  exact key l.length l le_rfl

/-- C4: for a positive chunk size `k`, split succeeds and partitions the
`N` records into exactly `⌈N / k⌉` consecutive chunks in container
order whose concatenation, chunk order then intra-chunk order, is
exactly the original record sequence (no loss, duplication or
reordering); every chunk is nonempty of size at most `k` and every
chunk but the last has size exactly `k`. -/
theorem splitContainer_spec (C : Container) (k : Nat) (hk : 0 < k) :
    ∃ chunks, splitContainer C k = Except.ok chunks ∧
      chunks.length = (C.length + k - 1) / k ∧
      chunks.flatten = C ∧
      (∀ c ∈ chunks, c.length ≤ k ∧ c ≠ []) ∧
      (∀ (i : Nat), i + 1 < chunks.length →
        (chunks[i]?).map List.length = some k) := by
  refine ⟨chunksOf k C, ?_, chunksOf_length k hk C, chunksOf_flatten k hk C,
    chunksOf_mem k hk C, chunksOf_full_chunks k hk C⟩
  rw [splitContainer, if_neg (Nat.pos_iff_ne_zero.mp hk)]

/-- Witness for C4: five records split into chunks of two. -/
theorem splitContainer_spec_witness :
    0 < 2 ∧
    ∃ chunks,
      splitContainer [⟨"a", [], []⟩, ⟨"b", [], []⟩, ⟨"c", [], []⟩,
        ⟨"d", [], []⟩, ⟨"e", [], []⟩] 2 = Except.ok chunks ∧
      chunks.length = (([⟨"a", [], []⟩, ⟨"b", [], []⟩, ⟨"c", [], []⟩,
        ⟨"d", [], []⟩, ⟨"e", [], []⟩] : Container).length + 2 - 1) / 2 ∧
      chunks.flatten = [⟨"a", [], []⟩, ⟨"b", [], []⟩, ⟨"c", [], []⟩,
        ⟨"d", [], []⟩, ⟨"e", [], []⟩] ∧
      (∀ c ∈ chunks, c.length ≤ 2 ∧ c ≠ []) ∧
      (∀ (i : Nat), i + 1 < chunks.length →
        (chunks[i]?).map List.length = some 2) :=
  ⟨by decide, splitContainer_spec _ 2 (by decide)⟩

/-- Witness for C3: container with tags a, b, c sliced by [c, z, a]. -/
theorem slice_spec_witness :
    (slice [⟨"a", ["A"], []⟩, ⟨"b", ["B"], []⟩, ⟨"c", ["C"], []⟩] ["c", "z", "a"]).data =
      [⟨"c", ["C"], []⟩, ⟨"a", ["A"], []⟩] ∧
    (slice [⟨"a", ["A"], []⟩, ⟨"b", ["B"], []⟩, ⟨"c", ["C"], []⟩] ["c", "z", "a"]).warnings =
      ["z"] := by
  obtain ⟨h1, -, h3⟩ :=
    slice_spec [⟨"a", ["A"], []⟩, ⟨"b", ["B"], []⟩, ⟨"c", ["C"], []⟩] ["c", "z", "a"]
  exact ⟨by rw [h1]; rfl, by rw [h3]; rfl⟩

/-! ## Score table (spec §4.10) -/

/-- Modelled from the spec: the sorted union of every key present in
any record's score mapping. -/
def sortedScoreKeys (C : Container) : List String :=
  ((C.map (fun r => r.score.map Prod.fst)).flatten).dedup.mergeSort

/-- Modelled from the spec: the cell for record `r` in column `k` — the
stored textual value, or the sentinel when the record lacks the key. -/
def rowCell (r : Record) (k : String) : String :=
  match r.score.find? (fun kv => kv.1 == k) with
  | some kv => kv.2
  | none => "NaN"

/-- A derived score table: a header row and the data rows. -/
structure ScoreTable where
  header : List String
  rows : List (List String)
deriving Repr, DecidableEq

/-- Modelled from the spec: `rs_extract_scorefile` derives the tabular
score artifact: the tag column first, then the sorted key union; one
row per record that has any score entries, in container order; records
with no score mapping are omitted entirely. -/
def scoreTable (C : Container) : ScoreTable :=
  { header := "tag" :: sortedScoreKeys C,
    rows := C.filterMap (fun r =>
      if r.score.isEmpty then none
      else some (r.tag :: (sortedScoreKeys C).map (rowCell r))) }

theorem filterMap_if_eq_map_filter {α β : Type} (p : α → Bool) (f : α → β)
    (l : List α) :
    l.filterMap (fun a => if p a then none else some (f a)) =
      (l.filter (fun a => !p a)).map f := by
  induction l with
  | nil => rfl
  | cons a l ih =>
    by_cases hp : p a
    · simp [List.filterMap_cons, List.filter_cons, hp, ih]
    · simp [List.filterMap_cons, List.filter_cons, hp, ih]

/-- C5: the table has one row per record that carries at least one score
entry, in container order, and scoreless records are omitted; the
header is the tag column followed by the sorted, duplicate-free union
of all observed score keys; and a scored record missing a column's key
reports the sentinel in that cell. -/
theorem scoreTable_spec (C : Container) :
    (scoreTable C).rows =
      (C.filter (fun r => !r.score.isEmpty)).map
        (fun r => r.tag :: (sortedScoreKeys C).map (rowCell r)) ∧
    (scoreTable C).header = "tag" :: sortedScoreKeys C ∧
    (sortedScoreKeys C).Sorted (· ≤ ·) ∧
    (sortedScoreKeys C).Nodup ∧
    (∀ k, k ∈ sortedScoreKeys C ↔ ∃ r ∈ C, ∃ kv ∈ r.score, kv.1 = k) ∧
    (∀ (r : Record) (k : String), (∀ kv ∈ r.score, kv.1 ≠ k) →
      rowCell r k = "NaN") := by
  refine ⟨?_, rfl, ?_, ?_, ?_, ?_⟩
  · exact filterMap_if_eq_map_filter (fun r => r.score.isEmpty) _ C
  · exact List.sorted_mergeSort' _
  · exact (List.mergeSort_perm _ _).nodup_iff.mpr (List.nodup_dedup _)
  · intro k
    rw [sortedScoreKeys, (List.mergeSort_perm _ _).mem_iff, List.mem_dedup]
    simp only [List.mem_flatten, List.mem_map]
    constructor
    · rintro ⟨keys, ⟨r, hr, rfl⟩, hk⟩
      obtain ⟨kv, hkv, hkveq⟩ := List.mem_map.mp hk
      exact ⟨r, hr, kv, hkv, hkveq⟩
    · rintro ⟨r, hr, kv, hkv, rfl⟩
      exact ⟨r.score.map Prod.fst, ⟨r, hr, rfl⟩, List.mem_map.mpr ⟨kv, hkv, rfl⟩⟩
  · intro r k hmiss
    rw [rowCell]
    have hfind : r.score.find? (fun kv => kv.1 == k) = none := by
      rw [List.find?_eq_none]
      intro kv hkv
      simpa using hmiss kv hkv
    rw [hfind]

/-- Witness for C5 on the container of the repository's score-file test:
`tag1` and `tag2` carry scores, `tag3` does not. -/
theorem scoreTable_spec_witness :
    rowCell ⟨"tag1", ["ATOM 1 X"], [("scoreA", "1.2"), ("scoreB", "3.4")]⟩ "scoreC" =
      "NaN" ∧
    (∀ kv ∈ ([("scoreA", "1.2"), ("scoreB", "3.4")] : List (String × String)),
      kv.1 ≠ "scoreC") :=
  have h := (scoreTable_spec [⟨"tag1", ["ATOM 1 X"], [("scoreA", "1.2"), ("scoreB", "3.4")]⟩,
    ⟨"tag2", ["ATOM 2 Y"], [("scoreA", "5.6"), ("scoreC", "7.8")]⟩,
    ⟨"tag3", ["ATOM 3 Z"], []⟩]).2.2.2.2.2
  ⟨h ⟨"tag1", ["ATOM 1 X"], [("scoreA", "1.2"), ("scoreB", "3.4")]⟩ "scoreC" (by decide),
    by decide⟩

/-! ## Extract (spec §4.4)

A file system is an association list from file name to file content
(content modelled as the file's lines); `List.lookup` finds the live
(most recently written) entry. -/

/-- A file system: file name to file content (lines). -/
abbrev FileSys := List (String × List String)

/-- Destination file name for a record tag. -/
def destName (tag : String) : String := tag ++ ".pdb"

/-- Modelled from the spec: `rs_extract_pdbs` walks the container in
order; each record's body lines are written verbatim to `<tag>.pdb`
unless that file already exists, in which case the record is silently
skipped (not overwritten, not an error).  Returns the updated file
system and the written paths in container order. -/
def extractAll (C : Container) (fs : FileSys) : FileSys × List String :=
  match C with
  | [] => (fs, [])
  | r :: rest =>
    let dest := destName r.tag
    if (fs.lookup dest).isSome then extractAll rest fs
    else
      let step := extractAll rest ((dest, r.body) :: fs)
      (step.1, dest :: step.2)

theorem extractAll_lookup_mono (C : Container) (fs : FileSys) (n : String)
    (v : List String) (h : fs.lookup n = some v) :
    ((extractAll C fs).1).lookup n = some v := by
  induction C generalizing fs with
  | nil => exact h
  | cons r rest ih =>
    by_cases hdest : (fs.lookup (destName r.tag)).isSome
    · simp only [extractAll, if_pos hdest]
      exact ih fs h
    · simp only [extractAll, if_neg hdest]
      refine ih _ ?_
      have hne : (n == destName r.tag) = false := by
        rw [beq_eq_false_iff_ne]
        intro heq
        subst heq
        rw [h] at hdest
        simp at hdest
      simp [List.lookup, hne, h]

theorem extractAll_dest_isSome (C : Container) (fs : FileSys) :
    ∀ r ∈ C, (((extractAll C fs).1).lookup (destName r.tag)).isSome := by
  induction C generalizing fs with
  | nil => intro r hr; simp at hr
  | cons r0 rest ih =>
    intro r hr
    by_cases hdest : (fs.lookup (destName r0.tag)).isSome
    · simp only [extractAll, if_pos hdest]
      rcases List.mem_cons.mp hr with rfl | hr
      · obtain ⟨v, hv⟩ := Option.isSome_iff_exists.mp hdest
        rw [extractAll_lookup_mono rest fs _ v hv]
        rfl
      · exact ih fs r hr
    · simp only [extractAll, if_neg hdest]
      rcases List.mem_cons.mp hr with rfl | hr
      · have hv : ((destName r.tag, r.body) :: fs).lookup (destName r.tag) =
            some r.body := by simp [List.lookup]
        rw [extractAll_lookup_mono rest _ _ r.body hv]
        rfl
      · exact ih _ r hr

theorem extractAll_all_present (C : Container) (fs : FileSys)
    (h : ∀ r ∈ C, (fs.lookup (destName r.tag)).isSome) :
    extractAll C fs = (fs, []) := by
  induction C with
  | nil => rfl
  | cons r rest ih =>
    have hdest : (fs.lookup (destName r.tag)).isSome := h r (by simp)
    simp only [extractAll, if_pos hdest]
    exact ih (fun x hx => h x (by simp [hx]))

theorem extractAll_written_new (C : Container) (fs : FileSys) :
    ∀ d ∈ (extractAll C fs).2, fs.lookup d = none := by
  induction C generalizing fs with
  | nil => intro d hd; simp [extractAll] at hd
  | cons r rest ih =>
    intro d hd
    by_cases hdest : (fs.lookup (destName r.tag)).isSome
    · simp only [extractAll, if_pos hdest] at hd
      exact ih fs d hd
    · simp only [extractAll, if_neg hdest] at hd
      rcases List.mem_cons.mp hd with rfl | hd
      · exact Option.not_isSome_iff_eq_none.mp hdest
      · have hlook := ih ((destName r.tag, r.body) :: fs) d hd
        by_cases hne : d = destName r.tag
        · subst hne
          simp [List.lookup] at hlook
        · rwa [show ((destName r.tag, r.body) :: fs).lookup d = fs.lookup d by
            simp [List.lookup, beq_eq_false_iff_ne.mpr hne]] at hlook

theorem extractAll_written_nodup (C : Container) (fs : FileSys) :
    (extractAll C fs).2.Nodup := by
  induction C generalizing fs with
  | nil => simp [extractAll]
  | cons r rest ih =>
    by_cases hdest : (fs.lookup (destName r.tag)).isSome
    · simp only [extractAll, if_pos hdest]
      exact ih fs
    · simp only [extractAll, if_neg hdest]
      refine List.nodup_cons.mpr ⟨?_, ih _⟩
      intro hmem
      have := extractAll_written_new rest ((destName r.tag, r.body) :: fs) _ hmem
      simp [List.lookup] at this

/-- C6: extraction with the idempotent-skip policy — a record whose
destination file already exists is silently skipped (never overwritten,
never an error, never reported as written), and re-running `extractAll`
against the output of a first run changes nothing and writes no file. -/
theorem extractAll_idempotent (C : Container) (fs : FileSys) :
    extractAll C (extractAll C fs).1 = ((extractAll C fs).1, []) ∧
    (∀ (n : String) (v : List String), fs.lookup n = some v →
      ((extractAll C fs).1).lookup n = some v) ∧
    (∀ r ∈ C, (fs.lookup (destName r.tag)).isSome →
      destName r.tag ∉ (extractAll C fs).2) := by
  refine ⟨?_, fun n v h => extractAll_lookup_mono C fs n v h, ?_⟩
  · exact extractAll_all_present C _ (extractAll_dest_isSome C fs)
  · intro r hr hsome hmem
    have := extractAll_written_new C fs _ hmem
    rw [this] at hsome
    simp at hsome

/-- Witness for C6: one record, starting from an empty directory; the
second run is a no-op, and a pre-existing file is never overwritten. -/
theorem extractAll_idempotent_witness :
    extractAll [⟨"a", ["L1"], []⟩] (extractAll [⟨"a", ["L1"], []⟩] []).1 =
      ((extractAll [⟨"a", ["L1"], []⟩] []).1, []) ∧
    (([("a.pdb", ["OLD"])] : FileSys).lookup ("a.pdb") = some ["OLD"] ∧
      ((extractAll [⟨"a", ["L1"], []⟩] [("a.pdb", ["OLD"])]).1).lookup ("a.pdb") =
        some ["OLD"]) :=
  ⟨(extractAll_idempotent [⟨"a", ["L1"], []⟩] []).1,
    rfl, (extractAll_idempotent [⟨"a", ["L1"], []⟩] [("a.pdb", ["OLD"])]).2.1
      ("a.pdb") ["OLD"] rfl⟩

/-- Result of a selected extraction. -/
structure SelectedResult where
  fs : FileSys
  written : List String
  missing : List String
deriving Repr, DecidableEq

/-- Modelled from the spec: `rs_extract_selected_pdbs` resolves each
requested tag once (a tag requested twice is processed once), reports
requested tags absent from the container in `missing` without failing,
and extracts the present ones in container order under the
idempotent-skip policy. -/
def extractSelected (C : Container) (reqTags : List String) (fs : FileSys) :
    SelectedResult :=
  let uniq := reqTags.dedup
  let missing := uniq.filter (fun t => !C.any (fun r => r.tag == t))
  let res := extractAll (C.filter (fun r => uniq.contains r.tag)) fs
  ⟨res.1, res.2, missing⟩

/-- C7: selected extraction never fails on absent tags — they are
exactly the `missing` list; every requested tag present in the
container has its destination file present afterwards; the result
depends only on the deduplicated request (a tag requested twice is
processed once) and no destination is written twice. -/
theorem extractSelected_spec (C : Container) (reqTags : List String) (fs : FileSys) :
    (∀ t, t ∈ (extractSelected C reqTags fs).missing ↔
      t ∈ reqTags ∧ ∀ r ∈ C, r.tag ≠ t) ∧
    (∀ t ∈ reqTags, (∃ r ∈ C, r.tag = t) →
      (((extractSelected C reqTags fs).fs).lookup (destName t)).isSome) ∧
    extractSelected C reqTags fs = extractSelected C reqTags.dedup fs ∧
    (extractSelected C reqTags fs).written.Nodup := by
  refine ⟨?_, ?_, ?_, ?_⟩
  · intro t
    simp only [extractSelected, List.mem_filter, List.mem_dedup, Bool.not_eq_eq_eq_not,
      Bool.not_true, List.any_eq_false, beq_iff_eq]
  · rintro t ht ⟨r, hr, rfl⟩
    have hmem : r ∈ C.filter (fun x => reqTags.dedup.contains x.tag) := by
      rw [List.mem_filter]
      refine ⟨hr, ?_⟩
      simp only [List.contains_iff_exists_mem_beq, List.mem_dedup, beq_iff_eq]
      exact ⟨r.tag, ht, rfl⟩
    exact extractAll_dest_isSome _ fs r hmem
  · simp [extractSelected, List.dedup_idem]
  · exact extractAll_written_nodup _ fs

/-- Witness for C7: requesting `[b, z, b]` of a container with tags
`a`, `b` — `z` is missing, `b` is extracted, and the duplicated
request changes nothing. -/
theorem extractSelected_spec_witness :
    ("b" : String) ∈ (["b", "z", "b"] : List String) ∧
    (∃ r ∈ ([⟨"a", ["A"], []⟩, ⟨"b", ["B"], []⟩] : Container), r.tag = "b") ∧
    ((((extractSelected [⟨"a", ["A"], []⟩, ⟨"b", ["B"], []⟩] ["b", "z", "b"] []).fs).lookup
      (destName ("b"))).isSome) :=
  ⟨by decide, ⟨⟨"b", ["B"], []⟩, by decide, rfl⟩,
    (extractSelected_spec [⟨"a", ["A"], []⟩, ⟨"b", ["B"], []⟩] ["b", "z", "b"] []).2.1
      ("b") (by decide) ⟨⟨"b", ["B"], []⟩, by decide, rfl⟩⟩

/-! ## Rename swap protocol (spec §4.9, §5; `qvrename.py` lines 36-66) -/

/-- Write a file: the new entry shadows any previous one. -/
def writeFile (fs : FileSys) (name : String) (content : List String) : FileSys :=
  (name, content) :: fs

/-- Remove every entry for a file name. -/
def removeFile (fs : FileSys) (name : String) : FileSys :=
  fs.filter (fun p => !(p.1 == name))

theorem lookup_writeFile_self (fs : FileSys) (n : String) (c : List String) :
    (writeFile fs n c).lookup n = some c := by
  simp [writeFile, List.lookup]

theorem lookup_writeFile_ne (fs : FileSys) {m n : String} (h : m ≠ n)
    (c : List String) : (writeFile fs n c).lookup m = fs.lookup m := by
  simp [writeFile, List.lookup, beq_eq_false_iff_ne.mpr h]

theorem lookup_removeFile_self (fs : FileSys) (n : String) :
    (removeFile fs n).lookup n = none := by
  induction fs with
  | nil => rfl
  | cons p fs ih =>
    obtain ⟨k, v⟩ := p
    by_cases hk : k = n
    · subst hk
      simpa [removeFile, List.filter_cons] using ih
    · have hkn : (k == n) = false := beq_eq_false_iff_ne.mpr hk
      have hnk : (n == k) = false := beq_eq_false_iff_ne.mpr (Ne.symm hk)
      simp only [removeFile, List.filter_cons, hkn, Bool.not_false, if_pos rfl]
      simpa [List.lookup, hnk, removeFile] using ih

theorem lookup_removeFile_ne (fs : FileSys) {m n : String} (h : m ≠ n) :
    (removeFile fs n).lookup m = fs.lookup m := by
  induction fs with
  | nil => rfl
  | cons p fs ih =>
    obtain ⟨k, v⟩ := p
    by_cases hk : k = n
    · subst hk
      have hstep : removeFile ((k, v) :: fs) k = removeFile fs k := by
        simp [removeFile, List.filter_cons]
      rw [hstep, ih]
      simp [List.lookup, beq_eq_false_iff_ne.mpr h]
    · have hstep : removeFile ((k, v) :: fs) n = (k, v) :: removeFile fs n := by
        simp [removeFile, List.filter_cons, beq_eq_false_iff_ne.mpr hk]
      rw [hstep]
      by_cases hmk : m = k
      · subst hmk
        simp [List.lookup]
      · simp [List.lookup, beq_eq_false_iff_ne.mpr hmk, ih]

/-- Modelled from the spec: `rs_rename_tags` reads and parses the
container, renames the records, and fully materializes the serialized
result before returning; any failure (unreadable path, parse error,
tag-count mismatch) yields no temporary content at all. -/
def rsRenameTags (fs : FileSys) (origPath : String) (newTags : List String) :
    Option (List String) :=
  match fs.lookup origPath with
  | none => none
  | some lines =>
    match parseLines lines with
    | .error _ => none
    | .ok C =>
      match renameRecords C newTags with
      | .error _ => none
      | .ok C2 => some (serializeLines C2)

/-- Outcome of the rename command: the final file system, tagged with
whether the command succeeded. -/
inductive RenameOutcome where
  | success (fs : FileSys)
  | failure (fs : FileSys)
deriving Repr, DecidableEq

/-- Embedded from `qvrename.py` lines 36-66: obtain the fully written
temporary file from the engine, then atomically replace the original
with it (`os.replace`); `replaceOk` models whether that replace
succeeds.  On any failure the temporary file, if it was created, is
removed and the original is left untouched. -/
def renameTagsCli (fs : FileSys) (origPath tempPath : String)
    (newTags : List String) (replaceOk : Bool) : RenameOutcome :=
  match rsRenameTags fs origPath newTags with
  | none => .failure fs
  | some content =>
    let fs1 := writeFile fs tempPath content
    if replaceOk then
      .success (writeFile (removeFile fs1 tempPath) origPath content)
    else
      .failure (removeFile fs1 tempPath)

/-- C8: the rename result is materialized at the temporary path first
and the original is replaced only once that write has fully succeeded
(success implies the engine produced the complete renamed content, now
stored at the original path); on an aborted or failed swap the original
container is unchanged and the temporary file is cleaned up. -/
theorem renameTagsCli_spec (fs : FileSys) (origPath tempPath : String)
    (newTags : List String) (replaceOk : Bool)
    (hne : tempPath ≠ origPath) (hfresh : fs.lookup tempPath = none) :
    (∀ fs2, renameTagsCli fs origPath tempPath newTags replaceOk = .failure fs2 →
      fs2.lookup origPath = fs.lookup origPath ∧ fs2.lookup tempPath = none) ∧
    (∀ fs2, renameTagsCli fs origPath tempPath newTags replaceOk = .success fs2 →
      ∃ content, rsRenameTags fs origPath newTags = some content ∧
        fs2.lookup origPath = some content ∧ fs2.lookup tempPath = none) := by
  constructor
  · intro fs2 h
    rw [renameTagsCli] at h
    cases hrs : rsRenameTags fs origPath newTags with
    | none =>
      rw [hrs] at h
      simp only [RenameOutcome.failure.injEq] at h
      subst h
      exact ⟨rfl, hfresh⟩
    | some content =>
      rw [hrs] at h
      by_cases hok : replaceOk
      · simp [hok] at h
      · simp only [hok, Bool.false_eq_true, if_false,
          RenameOutcome.failure.injEq] at h
        subst h
        refine ⟨?_, lookup_removeFile_self _ _⟩
        rw [lookup_removeFile_ne _ (Ne.symm hne),
          lookup_writeFile_ne _ (Ne.symm hne)]
  · intro fs2 h
    rw [renameTagsCli] at h
    cases hrs : rsRenameTags fs origPath newTags with
    | none =>
      rw [hrs] at h
      simp at h
    | some content =>
      rw [hrs] at h
      by_cases hok : replaceOk
      · simp only [hok, if_true, RenameOutcome.success.injEq] at h
        subst h
        refine ⟨content, rfl, lookup_writeFile_self _ _ _, ?_⟩
        rw [lookup_writeFile_ne _ hne, lookup_removeFile_self]
      · simp [hok] at h

/-- Witness for C8: a one-record container renamed to tag `b`, with the
swap succeeding, and the same rename with the swap failing. -/
theorem renameTagsCli_spec_witness :
    ("tmp123" : String) ≠ "f.qv" ∧
    ([("f.qv", ["QV_TAG a", "L"])] : FileSys).lookup ("tmp123") = none ∧
    (([("f.qv", ["QV_TAG a", "L"])] : FileSys).lookup ("f.qv") =
        ([("f.qv", ["QV_TAG a", "L"])] : FileSys).lookup ("f.qv") ∧
      ([("f.qv", ["QV_TAG a", "L"])] : FileSys).lookup ("tmp123") = none) ∧
    (∃ content, rsRenameTags [("f.qv", ["QV_TAG a", "L"])] "f.qv" ["b"] = some content ∧
      ([("f.qv", ["QV_TAG b", "L"]), ("f.qv", ["QV_TAG a", "L"])] : FileSys).lookup
        ("f.qv") = some content ∧
      ([("f.qv", ["QV_TAG b", "L"]), ("f.qv", ["QV_TAG a", "L"])] : FileSys).lookup
        ("tmp123") = none) :=
  ⟨by decide, rfl,
    (renameTagsCli_spec [("f.qv", ["QV_TAG a", "L"])] "f.qv" "tmp123" ["b"] false
      (by decide) rfl).1 _ rfl,
    (renameTagsCli_spec [("f.qv", ["QV_TAG a", "L"])] "f.qv" "tmp123" ["b"] true
      (by decide) rfl).2 _ rfl⟩

/-! ## The slice command's tag-list guard (`qvslice.py` lines 23-38) -/

/-- Whitespace as recognized by Python `str.split` and `str.strip`. -/
def pyIsSpace (c : Char) : Bool :=
  c == ' ' || c == '\t' || c == '\n' || c == '\r' || c == '\x0b' || c == '\x0c'

/-- Helper for `pySplit`: walk the characters, accumulating the current
word reversed. -/
def pySplitAux : List Char → List Char → List (List Char)
  | [], cur => if cur.isEmpty then [] else [cur.reverse]
  | c :: cs, cur =>
    if pyIsSpace c then
      if cur.isEmpty then pySplitAux cs []
      else cur.reverse :: pySplitAux cs []
    else pySplitAux cs (c :: cur)

/-- Python `str.split()` with no argument: split on whitespace runs,
yielding no empty words. -/
def pySplit (s : String) : List String :=
  (pySplitAux s.data []).map (fun w => ⟨w⟩)

/-- Python `str.strip()`: drop leading and trailing whitespace. -/
def pyStrip (s : String) : String :=
  ⟨((s.data.dropWhile pyIsSpace).reverse.dropWhile pyIsSpace).reverse⟩

/-- Outcome of the slice command: an error exit, or an invocation of the
engine's slice with the cleaned tag list. -/
inductive QvsliceOutcome where
  | exited (code : Nat)
  | invoked (tags : List String)
deriving Repr, DecidableEq

/-- Embedded from `qvslice.py` line 31: strip each collected tag and
keep only those that are non-empty after stripping. -/
def qvsliceCleanTags (l : List String) : List String :=
  l.filterMap (fun t => if pyStrip t = "" then none else some (pyStrip t))

/-- Embedded from `qvslice.py` lines 23-28: the raw tag list — the
arguments, or the whitespace-split stdin text when no arguments were
given and stdin is piped (`stdin = none` models a tty). -/
def qvsliceTagSource (args : List String) (stdin : Option String) : List String :=
  if args.isEmpty then
    match stdin with
    | some s => pySplit (pyStrip s)
    | none => []
  else args

/-- Embedded from `qvslice.py` lines 23-38: collect the raw tags, clean
the list, exit with code 1 when it is empty, otherwise invoke the
engine's slice with it. -/
def qvsliceCli (args : List String) (stdin : Option String) : QvsliceOutcome :=
  if (qvsliceCleanTags (qvsliceTagSource args stdin)).isEmpty then .exited 1
  else .invoked (qvsliceCleanTags (qvsliceTagSource args stdin))

theorem pyStrip_of_all_space {s : String}
    (h : ∀ c ∈ s.data, pyIsSpace c = true) : pyStrip s = "" := by
  have hdrop : s.data.dropWhile pyIsSpace = [] :=
    List.dropWhile_eq_nil_iff.mpr h
  simp [pyStrip, hdrop]

/-- C9: when the requested tag list is empty after whitespace trimming
— every argument is whitespace-only and stdin (when piped) is
whitespace-only — the command exits with code 1 without invoking the
slice operation; moreover whenever slice is invoked, its tag list is
non-empty (and free of blank tags). -/
theorem qvsliceCli_spec (args : List String) (stdin : Option String) :
    ((∀ a ∈ args, pyStrip a = "") ∧
      (∀ s, stdin = some s → ∀ c ∈ s.data, pyIsSpace c = true) →
      qvsliceCli args stdin = .exited 1) ∧
    (∀ ts, qvsliceCli args stdin = .invoked ts → ts ≠ [] ∧ ∀ t ∈ ts, t ≠ "") := by
  constructor
  · rintro ⟨hargs, hstdin⟩
    have hclean : qvsliceCleanTags (qvsliceTagSource args stdin) = [] := by
      rw [qvsliceCleanTags, List.filterMap_eq_nil_iff]
      intro a ha
      unfold qvsliceTagSource at ha
      by_cases hargsEmpty : args.isEmpty
      · rw [if_pos hargsEmpty] at ha
        cases hst : stdin with
        | none => rw [hst] at ha; simp at ha
        | some s =>
          rw [hst] at ha
          change a ∈ pySplit (pyStrip s) at ha
          have hs : pyStrip s = "" := pyStrip_of_all_space (hstdin s hst)
          rw [hs] at ha
          simp only [pySplit] at ha
          have hnil : pySplitAux ("" : String).data [] = [] := rfl
          rw [hnil] at ha
          simp at ha
      · rw [if_neg hargsEmpty] at ha
        rw [hargs a ha]
        simp
    rw [qvsliceCli, hclean]
    rfl
  · intro ts h
    rw [qvsliceCli] at h
    by_cases hclean : (qvsliceCleanTags (qvsliceTagSource args stdin)).isEmpty
    · simp only [hclean, if_true] at h
      cases h
    · simp only [hclean, Bool.false_eq_true, if_false,
        QvsliceOutcome.invoked.injEq] at h
      subst h
      refine ⟨by simpa [List.isEmpty_iff] using hclean, ?_⟩
      intro t ht
      obtain ⟨a, -, hfa⟩ := List.mem_filterMap.mp ht
      by_cases hstrip : pyStrip a = ""
      · simp [hstrip] at hfa
      · simp only [hstrip, if_false, Option.some.injEq] at hfa
        rw [← hfa]
        exact hstrip

/-- Witness for C9: one whitespace-only argument exits with code 1, and
a genuine invocation carries a non-empty tag list. -/
theorem qvsliceCli_spec_witness :
    ((∀ a ∈ ([" \t "] : List String), pyStrip a = "") ∧
      (∀ s, (none : Option String) = some s → ∀ c ∈ s.data, pyIsSpace c = true)) ∧
    qvsliceCli [" \t "] none = .exited 1 ∧
    (qvsliceCli ["a "] none = .invoked ["a"] →
      (["a"] : List String) ≠ [] ∧ ∀ t ∈ (["a"] : List String), t ≠ "") :=
  ⟨⟨by decide, by intro s h; cases h⟩,
    (qvsliceCli_spec [" \t "] none).1 ⟨by decide, by intro s h; cases h⟩,
    (qvsliceCli_spec ["a "] none).2 ["a"]⟩

/-! ## The extract-selected command's tag normalization
(`qvextractspecific.py` lines 43-48) -/

/-- Embedded from `qvextractspecific.py` line 44:
`sorted(set(filter(None, tag_buffers)))` — drop empty strings,
deduplicate, and sort. -/
def uniqueTags (tagBuffers : List String) : List String :=
  ((tagBuffers.filter (fun t => !(t == ""))).dedup).mergeSort

/-- C10: the cleaned tag list depends only on the set of requested
tags, so two invocations whose requested tag lists are equal as sets
pass the identical tag list to the engine and produce identical
results, independent of request order and repetition. -/
theorem uniqueTags_spec (l1 l2 : List String) (h : ∀ t, t ∈ l1 ↔ t ∈ l2) :
    uniqueTags l1 = uniqueTags l2 ∧
    ∀ (C : Container) (fs : FileSys),
      extractSelected C (uniqueTags l1) fs = extractSelected C (uniqueTags l2) fs := by
  have hmem : ∀ t, t ∈ (l1.filter (fun t => !(t == ""))).dedup ↔
      t ∈ (l2.filter (fun t => !(t == ""))).dedup := by
    intro t
    simp only [List.mem_dedup, List.mem_filter, h t]
  have hperm : List.Perm ((l1.filter (fun t => !(t == ""))).dedup)
      ((l2.filter (fun t => !(t == ""))).dedup) :=
    (List.perm_ext_iff_of_nodup (List.nodup_dedup _) (List.nodup_dedup _)).mpr hmem
  have heq : uniqueTags l1 = uniqueTags l2 := by
    refine List.eq_of_perm_of_sorted ?_ (List.sorted_mergeSort' _)
      (List.sorted_mergeSort' _)
    exact ((List.mergeSort_perm _ _).trans hperm).trans (List.mergeSort_perm _ _).symm
  exact ⟨heq, fun C fs => by rw [heq]⟩

/-- Witness for C10: two permuted, duplicated requests with the same
tag set produce the identical cleaned list. -/
theorem uniqueTags_spec_witness :
    (∀ t, t ∈ (["b", "a", "b", ""] : List String) ↔
      t ∈ (["", "a", "a", "b"] : List String)) ∧
    uniqueTags ["b", "a", "b", ""] = uniqueTags ["", "a", "a", "b"] :=
  ⟨by intro t; simp [or_comm, or_left_comm, or_assoc],
    (uniqueTags_spec ["b", "a", "b", ""] ["", "a", "a", "b"]
      (by intro t; simp [or_comm, or_left_comm, or_assoc])).1⟩

end Quiver

